import Mathlib

/-!
Verification of the VP8 boolean (arithmetic) decoder and the RIFF/WebP
container demuxer of the `image-webp` crate, shallowly embedded in Lean.

The embedding follows `src/vp8_arithmetic_decoder.rs` and `src/decoder.rs`.
Machine integers are modelled as `Nat` (with explicit `% 2 ^ w` where the
Rust code can wrap) and `Int` (for the `i32` bit counter).  The payload is
the list of 32-bit big-endian words obtained from the 4-byte chunks, which
is exactly what the Rust code reads via `u32::from_be_bytes`.
-/

set_option maxHeartbeats 1000000
set_option maxRecDepth 10000

namespace ImageWebp

/-- Decoder state, mirroring `struct State` of `vp8_arithmetic_decoder.rs`:
`chunk_index : usize`, `value : u64`, `range : u32`, `bit_count : i32`. -/
structure State where
  chunk_index : Nat
  value : Nat
  range : Nat
  bit_count : Int
deriving DecidableEq

/-- The state installed by `ArithmeticDecoder::new` and `init`. -/
def init_state : State :=
  { chunk_index := 0, value := 0, range := 255, bit_count := -8 }

/-- The refill step at the top of `cold_read_bit`: when `bit_count < 0`,
load the next 32-bit chunk if one exists (shifting it into `value`), and
otherwise just advance `chunk_index` past the end and clamp `bit_count`
to 0. -/
def cold_refill (chunks : List Nat) (s : State) : State :=
  if s.bit_count < 0 then
    match chunks.get? s.chunk_index with
    | some v =>
        { chunk_index := s.chunk_index + 1
          value := ((s.value <<< 32) % 2 ^ 64) ||| v
          range := s.range
          bit_count := s.bit_count + 32 }
    | none =>
        { chunk_index := s.chunk_index + 1
          value := s.value
          range := s.range
          bit_count := 0 }
  else s

/-- The refill step of the `fast_read_*` functions: past the end of the
buffer a zero chunk is substituted (`unwrap_or_default`), and
`chunk_index` is still advanced so that `commit_if_valid` can detect the
overrun. -/
def fast_refill (chunks : List Nat) (s : State) : State :=
  if s.bit_count < 0 then
    { chunk_index := s.chunk_index + 1
      value := ((s.value <<< 32) % 2 ^ 64) ||| ((chunks.get? s.chunk_index).getD 0)
      range := s.range
      bit_count := s.bit_count + 32 }
  else s

/-- Number of binary digits of `n`, computed with explicit fuel so that the
definition is structurally recursive.  For `n < 2 ^ fuel` this is the exact
bit length. -/
def bit_len : Nat → Nat → Nat
  | 0, _ => 0
  | fuel + 1, n => if n = 0 then 0 else bit_len fuel (n / 2) + 1

/-- `u32::leading_zeros`, for arguments below `2 ^ 32`. -/
def clz32 (n : Nat) : Nat := 32 - bit_len 32 n

/-- The renormalization shift `range.leading_zeros().saturating_sub(24)`
(Nat subtraction is saturating). -/
def renorm_shift (r : Nat) : Nat := clz32 r - 24

/-- The common arithmetic of `cold_read_bit` and `fast_read_bit` after the
refill: compute the split, compare against `value`, update the state and
renormalize.  `s.range - 1` is Nat subtraction; it matches the `u32`
subtraction whenever `range ≥ 1`, which the decoder maintains. -/
def bit_read_core (p : Nat) (s : State) : Bool × State :=
  let split := 1 + (s.range - 1) * p / 256
  let bigsplit := (split <<< s.bit_count.toNat) % 2 ^ 64
  if bigsplit ≤ s.value then
    let r := s.range - split
    let sh := renorm_shift r
    (true, { s with value := s.value - bigsplit
                    range := (r <<< sh) % 2 ^ 32
                    bit_count := s.bit_count - (sh : Int) })
  else
    let sh := renorm_shift split
    (false, { s with range := (split <<< sh) % 2 ^ 32
                     bit_count := s.bit_count - (sh : Int) })

/-- The arithmetic of `fast_read_flag` after the refill: the split is
`range - range / 2` and the renormalization shift is 1 unless the new
range is exactly 128. -/
def flag_read_core (s : State) : Bool × State :=
  let half_range := s.range / 2
  let split := s.range - half_range
  let bigsplit := (split <<< s.bit_count.toNat) % 2 ^ 64
  if bigsplit ≤ s.value then
    let sh : Nat := if half_range = 128 then 0 else 1
    (true, { s with value := s.value - bigsplit
                    range := (half_range <<< sh) % 2 ^ 32
                    bit_count := s.bit_count - (sh : Int) })
  else
    let sh : Nat := if split = 128 then 0 else 1
    (false, { s with range := (split <<< sh) % 2 ^ 32
                     bit_count := s.bit_count - (sh : Int) })

/-- The arithmetic of `fast_read_sign` after the refill: same split as
`fast_read_flag`, but the renormalization shift is unconditionally 1. -/
def sign_read_core (s : State) : Bool × State :=
  let half_range := s.range / 2
  let split := s.range - half_range
  let bigsplit := (split <<< s.bit_count.toNat) % 2 ^ 64
  if bigsplit ≤ s.value then
    (true, { s with value := s.value - bigsplit
                    range := (half_range <<< 1) % 2 ^ 32
                    bit_count := s.bit_count - 1 })
  else
    (false, { s with range := (split <<< 1) % 2 ^ 32
                     bit_count := s.bit_count - 1 })

/-- `ArithmeticDecoder::cold_read_bit`. -/
def cold_read_bit (chunks : List Nat) (p : Nat) (s : State) : Bool × State :=
  bit_read_core p (cold_refill chunks s)

/-- `ArithmeticDecoder::cold_read_bool`. -/
def cold_read_bool (chunks : List Nat) (p : Nat) (s : State) : Bool × State :=
  cold_read_bit chunks p s

/-- `ArithmeticDecoder::cold_read_flag`. -/
def cold_read_flag (chunks : List Nat) (s : State) : Bool × State :=
  cold_read_bit chunks 128 s

/-- The loop body of `cold_read_literal`: `v = (v << 1) + u8::from(b)` in
`u8` arithmetic, `n` iterations. -/
def cold_read_literal_aux (chunks : List Nat) : Nat → Nat → State → Nat × State
  | 0, v, s => (v, s)
  | n + 1, v, s =>
    let r := cold_read_flag chunks s
    cold_read_literal_aux chunks n ((v * 2 + (if r.1 then 1 else 0)) % 256) r.2

/-- `ArithmeticDecoder::cold_read_literal`. -/
def cold_read_literal (chunks : List Nat) (n : Nat) (s : State) : Nat × State :=
  cold_read_literal_aux chunks n 0 s

/-- `ArithmeticDecoder::cold_read_optional_signed_value`. -/
def cold_read_optional_signed_value (chunks : List Nat) (n : Nat) (s : State) :
    Int × State :=
  let rf := cold_read_flag chunks s
  if rf.1 then
    let rm := cold_read_literal chunks n rf.2
    let rs := cold_read_flag chunks rm.2
    ((if rs.1 then -(rm.1 : Int) else (rm.1 : Int)), rs.2)
  else (0, rf.2)

/-- `FastDecoder::fast_read_bit`. -/
def fast_read_bit (chunks : List Nat) (p : Nat) (s : State) : Bool × State :=
  bit_read_core p (fast_refill chunks s)

/-- `FastDecoder::fast_read_flag`. -/
def fast_read_flag (chunks : List Nat) (s : State) : Bool × State :=
  flag_read_core (fast_refill chunks s)

/-- `FastDecoder::fast_read_sign`. -/
def fast_read_sign (chunks : List Nat) (s : State) : Bool × State :=
  sign_read_core (fast_refill chunks s)

/-- The loop body of `fast_read_literal`. -/
def fast_read_literal_aux (chunks : List Nat) : Nat → Nat → State → Nat × State
  | 0, v, s => (v, s)
  | n + 1, v, s =>
    let r := fast_read_flag chunks s
    fast_read_literal_aux chunks n ((v * 2 + (if r.1 then 1 else 0)) % 256) r.2

/-- `FastDecoder::fast_read_literal`. -/
def fast_read_literal (chunks : List Nat) (n : Nat) (s : State) : Nat × State :=
  fast_read_literal_aux chunks n 0 s

/-- A probability-tree node, as declared in `src/vp8.rs` (only referenced
from the sources in `src/`): an 8-bit probability, the two child bytes,
and the node's own index. -/
structure TreeNode where
  prob : Nat
  left : Nat
  right : Nat
  index : Nat
deriving DecidableEq

instance : Inhabited TreeNode := ⟨⟨0, 0, 0, 0⟩⟩

/-- Modelled from the spec: `TreeNode::value_from_branch` lives in
`src/vp8.rs`, which is not among the sources; the spec only fixes it as "a
fixed function of the child byte" (a child byte that does not index a
further node encodes the leaf value).  Any fixed function is faithful for
the claims below, which never depend on the particular leaf encoding. -/
def value_from_branch (t : Nat) : Int := -((t : Int) - 256)

/-- `ArithmeticDecoder::cold_read_with_tree`, with explicit fuel bounding
the number of further tree-walking iterations (the Rust `loop` has no such
bound; every claim quantifies over the fuel). -/
def cold_read_with_tree (chunks : List Nat) (tree : List TreeNode) :
    Nat → Nat → State → Option Int × State
  | 0, ix, s =>
    let node := (tree.get? ix).getD default
    let r := cold_read_bit chunks node.prob s
    let t := if r.1 then node.right else node.left
    if t < tree.length then (none, r.2) else (some (value_from_branch t), r.2)
  | fuel + 1, ix, s =>
    let node := (tree.get? ix).getD default
    let r := cold_read_bit chunks node.prob s
    let t := if r.1 then node.right else node.left
    if t < tree.length then cold_read_with_tree chunks tree fuel t r.2
    else (some (value_from_branch t), r.2)

/-- `FastDecoder::fast_read_with_tree`, with the same fuel convention. -/
def fast_read_with_tree (chunks : List Nat) (tree : List TreeNode) :
    Nat → TreeNode → State → Option Int × State
  | 0, node, s =>
    let r := fast_read_bit chunks node.prob s
    let t := if r.1 then node.right else node.left
    if t < tree.length then (none, r.2) else (some (value_from_branch t), r.2)
  | fuel + 1, node, s =>
    let r := fast_read_bit chunks node.prob s
    let t := if r.1 then node.right else node.left
    match tree.get? t with
    | some next => fast_read_with_tree chunks tree fuel next r.2
    | none => (some (value_from_branch t), r.2)

/-- `FastDecoder::commit_if_valid`: the uncommitted state is kept only if
no read used a chunk index past the end of the buffer. -/
def commit_if_valid {α : Type} (chunks : List Nat) (r : α × State) :
    Option (α × State) :=
  if r.2.chunk_index ≤ chunks.length then some r else none

/-- `ArithmeticDecoder::read_bool`: try the fast path, fall back to the
cold path from the unchanged state if the fast path read past the end. -/
def read_bool (chunks : List Nat) (p : Nat) (s : State) : Bool × State :=
  (commit_if_valid chunks (fast_read_bit chunks p s)).getD (cold_read_bool chunks p s)

/-- `ArithmeticDecoder::read_flag`. -/
def read_flag (chunks : List Nat) (s : State) : Bool × State :=
  (commit_if_valid chunks (fast_read_flag chunks s)).getD (cold_read_flag chunks s)

/-- `ArithmeticDecoder::read_sign`; note that its cold fallback is
`cold_read_flag`. -/
def read_sign (chunks : List Nat) (s : State) : Bool × State :=
  (commit_if_valid chunks (fast_read_sign chunks s)).getD (cold_read_flag chunks s)

/-- `ArithmeticDecoder::read_literal`. -/
def read_literal (chunks : List Nat) (n : Nat) (s : State) : Nat × State :=
  (commit_if_valid chunks (fast_read_literal chunks n s)).getD
    (cold_read_literal chunks n s)

/-- `FastDecoder::read_optional_signed_value` (including its final
commit). -/
def fast_read_optional_signed_value (chunks : List Nat) (n : Nat) (s : State) :
    Option (Int × State) :=
  let rf := fast_read_flag chunks s
  if rf.1 then
    let rm := fast_read_literal chunks n rf.2
    let rs := fast_read_flag chunks rm.2
    commit_if_valid chunks ((if rs.1 then -(rm.1 : Int) else (rm.1 : Int)), rs.2)
  else commit_if_valid chunks ((0 : Int), rf.2)

/-- `ArithmeticDecoder::read_optional_signed_value`. -/
def read_optional_signed_value (chunks : List Nat) (n : Nat) (s : State) :
    Int × State :=
  (fast_read_optional_signed_value chunks n s).getD
    (cold_read_optional_signed_value chunks n s)

/-- `ArithmeticDecoder::read_with_tree` followed by
`read_with_tree_with_first_node`: the first node is `tree[0]`, the cold
fallback starts from `first_node.index`. -/
def read_with_tree (chunks : List Nat) (tree : List TreeNode) (fuel : Nat)
    (s : State) : Option Int × State :=
  let first := (tree.get? 0).getD default
  (commit_if_valid chunks (fast_read_with_tree chunks tree fuel first s)).getD
    (cold_read_with_tree chunks tree fuel first.index s)

/-- The error enumeration of `src/decoder.rs` (payloads that the claims
never inspect are dropped; the FourCC and magic-tag payloads are kept as
byte lists). -/
inductive DecodingError where
  | IoError
  | InvalidSignature
  | ChunkHeaderInvalid (fcc : List Nat)
  | ChunkMissing
  | ReservedBitSet
  | InvalidAlphaPreprocessing
  | InvalidCompressionMethod
  | AlphaChunkSizeMismatch
  | ImageTooLarge
  | FrameOutsideImage
  | LosslessUnsupported
  | ExtendedUnsupported
  | VersionNumberInvalid (v : Nat)
  | InvalidColorCacheBits (v : Nat)
  | HuffmanError
  | BitStreamError
  | TransformError
  | BufferUnderrun
  | Vp8MagicInvalid (tag : List Nat)
  | InvalidImageSize
  | NotEnoughInitData
  | ColorSpaceInvalid (v : Nat)
  | LumaPredictionModeInvalid
  | IntraPredictionModeInvalid
  | ChromaPredictionModeInvalid
  | NonKeyframe
  | InvalidParameter
  | MemoryLimitExceeded
  | InvalidChunkSize
  | NoMoreFrames
deriving DecidableEq

/-- `ArithmeticDecoder::check`. -/
def check {α : Type} (chunks : List Nat) (s : State) (v : α) :
    Except DecodingError α :=
  if chunks.length < s.chunk_index then .error .BitStreamError else .ok v

/-- One public read primitive of the arithmetic decoder, for stating
properties about arbitrary sequences of reads. -/
inductive Prim where
  | bool (p : Nat)
  | flag
  | sign
  | literal (n : Nat)
  | optSigned (n : Nat)
  | tree (t : List TreeNode) (fuel : Nat)

/-- The state transition of one primitive read. -/
def stepPrim (chunks : List Nat) (s : State) : Prim → State
  | .bool p => (read_bool chunks p s).2
  | .flag => (read_flag chunks s).2
  | .sign => (read_sign chunks s).2
  | .literal n => (read_literal chunks n s).2
  | .optSigned n => (read_optional_signed_value chunks n s).2
  | .tree t fuel => (read_with_tree chunks t fuel s).2

/-- Run a sequence of primitive reads. -/
def run (chunks : List Nat) (prims : List Prim) (s : State) : State :=
  prims.foldl (stepPrim chunks) s

/-- Probabilities are bytes in the Rust code (`u8`); this well-formedness
predicate records that for the `Nat`-typed model. -/
def Prim.wf : Prim → Prop
  | .bool p => p ≤ 255
  | .tree t _ => ∀ n ∈ t, n.prob ≤ 255
  | _ => True

/-- The result of running a Rust function that can also panic (the slice
indexing in `decoder.rs` panics on out-of-range indices). -/
inductive PResult (α : Type) where
  | ok (a : α)
  | err (e : DecodingError)
  | panicked
deriving DecidableEq

/-- `WebPDecoder::read_vp8_chunk`, over the byte list starting at the VP8
frame tag (offset 20 of the file).  Slice indexing `chunk[a..b]` panics
when the slice is too short, which the model makes explicit. -/
def read_vp8_chunk (chunk : List Nat) (lo hi : Nat) :
    PResult (Nat × Nat × Nat × Nat) :=
  if chunk.length < 1 then .panicked
  else if chunk.getD 0 0 &&& 1 ≠ 0 then .err .NonKeyframe
  else if chunk.length < 6 then .panicked
  else if (chunk.drop 3).take 3 ≠ [0x9d, 0x01, 0x2a] then
    .err (.Vp8MagicInvalid ((chunk.drop 3).take 3))
  else if chunk.length < 8 then .panicked
  else
    let width := (chunk.getD 6 0 + 256 * chunk.getD 7 0) &&& 0x3fff
    if chunk.length < 10 then .panicked
    else
      let height := (chunk.getD 8 0 + 256 * chunk.getD 9 0) &&& 0x3fff
      if width = 0 ∨ height = 0 then .err .InvalidImageSize
      else .ok (width, height, lo, hi)

/-- `WebPDecoder::read_chunks`.  The returned pair `(lo, hi)` is the Rust
`Range` `20..20 + chunk_size`. -/
def read_chunks (data : List Nat) : PResult (Nat × Nat × Nat × Nat) :=
  if data.length < 4 then .panicked
  else if data.take 4 ≠ [0x52, 0x49, 0x46, 0x46] then .err .InvalidSignature
  else if data.length < 12 then .panicked
  else if (data.drop 8).take 4 ≠ [0x57, 0x45, 0x42, 0x50] then .err .InvalidSignature
  else
    let chunk := data.drop 12
    if chunk.length < 4 then .panicked
    else
      let chunk_fcc := chunk.take 4
      if chunk.length < 8 then .panicked
      else
        let chunk_size := chunk.getD 4 0 + 256 * chunk.getD 5 0 +
          65536 * chunk.getD 6 0 + 16777216 * chunk.getD 7 0
        if chunk_fcc = [0x56, 0x50, 0x38, 0x20] then
          read_vp8_chunk (chunk.drop 8) 20 (20 + chunk_size)
        else if chunk_fcc = [0x56, 0x50, 0x38, 0x4c] then .err .LosslessUnsupported
        else if chunk_fcc = [0x56, 0x50, 0x38, 0x58] then .err .ExtendedUnsupported
        else .err (.ChunkHeaderInvalid chunk_fcc)

/-- The decoder facade of `decoder.rs`. -/
structure WebPDecoder where
  width : Nat
  height : Nat
  data : List Nat
deriving DecidableEq

/-- `WebPDecoder::new`: run `read_chunks` and copy `data[range]` (the copy
panics when the range end exceeds the buffer). -/
def WebPDecoder.new (data : List Nat) : PResult WebPDecoder :=
  match read_chunks data with
  | .panicked => .panicked
  | .err e => .err e
  | .ok (w, h, lo, hi) =>
      if lo ≤ hi ∧ hi ≤ data.length then
        .ok { width := w, height := h, data := (data.drop lo).take (hi - lo) }
      else .panicked

/-- `usize::checked_mul`, with `usize` modelled as 64 bits. -/
def checked_mul (a b : Nat) : Option Nat :=
  if a * b < 2 ^ 64 then some (a * b) else none

/-- `WebPDecoder::output_buffer_size`. -/
def output_buffer_size (d : WebPDecoder) : Option Nat :=
  match checked_mul d.width d.height with
  | none => none
  | some x => checked_mul x 3

/-- `WebPDecoder::read_image`.  The VP8 frame decode (`Vp8Decoder`, not
among the sources) is abstracted as the `decode` parameter, which receives
the stored payload and the output buffer; the guard around it is the code
under verification. -/
def read_image (decode : List Nat → List Nat → Except DecodingError (List Nat))
    (d : WebPDecoder) (buf : List Nat) : Except DecodingError (List Nat) :=
  if some buf.length ≠ output_buffer_size d then .error .ImageTooLarge
  else decode d.data buf

end ImageWebp

namespace ImageWebp

/-! ### Basic facts about the cores and refills -/

theorem bit_read_core_chunk_index (p : Nat) (s : State) :
    (bit_read_core p s).2.chunk_index = s.chunk_index := by
  simp only [bit_read_core]
  split <;> rfl

theorem flag_read_core_chunk_index (s : State) :
    (flag_read_core s).2.chunk_index = s.chunk_index := by
  simp only [flag_read_core]
  split <;> rfl

theorem sign_read_core_chunk_index (s : State) :
    (sign_read_core s).2.chunk_index = s.chunk_index := by
  simp only [sign_read_core]
  split <;> rfl

theorem cold_refill_spec (chunks : List Nat) (s : State)
    (hb1 : -32 ≤ s.bit_count) (hb2 : s.bit_count ≤ 31) :
    (cold_refill chunks s).range = s.range ∧
    s.chunk_index ≤ (cold_refill chunks s).chunk_index ∧
    (cold_refill chunks s).chunk_index ≤ s.chunk_index + 1 ∧
    0 ≤ (cold_refill chunks s).bit_count ∧ (cold_refill chunks s).bit_count ≤ 31 := by
  unfold cold_refill
  split
  · rcases h : chunks.get? s.chunk_index with _ | v <;> simp [h] <;> omega
  · refine ⟨rfl, le_refl _, by omega, by omega, hb2⟩

theorem fast_refill_spec (chunks : List Nat) (s : State)
    (hb1 : -32 ≤ s.bit_count) (hb2 : s.bit_count ≤ 31) :
    (fast_refill chunks s).range = s.range ∧
    s.chunk_index ≤ (fast_refill chunks s).chunk_index ∧
    (fast_refill chunks s).chunk_index ≤ s.chunk_index + 1 ∧
    0 ≤ (fast_refill chunks s).bit_count ∧ (fast_refill chunks s).bit_count ≤ 31 := by
  unfold fast_refill
  split
  · exact ⟨rfl, by simp, by simp, by simp; omega, by simp; omega⟩
  · exact ⟨rfl, le_refl _, by omega, by omega, hb2⟩

/-- When the fast refill did not run past the end of the buffer, it agrees
with the cold refill. -/
theorem fast_refill_eq_cold (chunks : List Nat) (s : State)
    (h : (fast_refill chunks s).chunk_index ≤ chunks.length) :
    fast_refill chunks s = cold_refill chunks s := by
  unfold fast_refill cold_refill
  split
  · rename_i hneg
    rcases hg : chunks.get? s.chunk_index with _ | v
    · exfalso
      have hlen : chunks.length ≤ s.chunk_index := List.get?_eq_none.mp hg
      have : s.chunk_index + 1 ≤ chunks.length := by
        simpa [fast_refill, hneg] using h
      omega
    · simp [hg]
  · rfl

/-! ### Bounded-range arithmetic facts, settled by `decide` -/

theorem renorm_spec : ∀ x, x < 255 → 1 ≤ x →
    renorm_shift x ≤ 7 ∧ 128 ≤ x <<< renorm_shift x ∧ x <<< renorm_shift x ≤ 254 ∧
    ∀ j, j < renorm_shift x → x <<< j < 128 := by decide

theorem flag_split_128 : ∀ r, r < 256 → 128 ≤ r →
    1 + (r - 1) * 128 / 256 = r - r / 2 := by decide

theorem flag_shift_half : ∀ r, r < 256 → 128 ≤ r →
    renorm_shift (r / 2) = if r / 2 = 128 then 0 else 1 := by decide

theorem flag_shift_split : ∀ r, r < 256 → 128 ≤ r →
    renorm_shift (r - r / 2) = if r - r / 2 = 128 then 0 else 1 := by decide

theorem sign_shift_half : ∀ r, r < 255 → 128 ≤ r →
    (if r / 2 = 128 then (0 : Nat) else 1) = 1 := by decide

theorem sign_shift_split : ∀ r, r < 255 → 128 ≤ r →
    (if r - r / 2 = 128 then (0 : Nat) else 1) = 1 := by decide

theorem flag_post_bounds : ∀ r, r < 256 → 128 ≤ r →
    128 ≤ (r / 2) <<< (if r / 2 = 128 then 0 else 1) ∧
    (r / 2) <<< (if r / 2 = 128 then 0 else 1) ≤ 254 ∧
    128 ≤ (r - r / 2) <<< (if r - r / 2 = 128 then 0 else 1) ∧
    (r - r / 2) <<< (if r - r / 2 = 128 then 0 else 1) ≤ 254 := by decide

theorem sign_post_bounds : ∀ r, r < 255 → 128 ≤ r →
    128 ≤ (r / 2) <<< 1 ∧ (r / 2) <<< 1 ≤ 254 ∧
    128 ≤ (r - r / 2) <<< 1 ∧ (r - r / 2) <<< 1 ≤ 254 := by decide

theorem split_le (r p : Nat) (hr : 2 ≤ r) (hp : p ≤ 255) :
    1 + (r - 1) * p / 256 ≤ r - 1 := by
  have h0 : 0 < r - 1 := by omega
  have h1 : (r - 1) * p < (r - 1) * 256 := by
    calc (r - 1) * p ≤ (r - 1) * 255 := Nat.mul_le_mul_left _ hp
      _ < (r - 1) * 256 := mul_lt_mul_of_pos_left (by omega) h0
  have h2 : (r - 1) * p / 256 < r - 1 :=
    (Nat.div_lt_iff_lt_mul (by omega)).mpr h1
  omega

/-! ### Equivalence of the specialized cores -/

/-- `fast_read_flag`'s arithmetic agrees with the generic bit read at
probability 128 on every state whose range is in the decoder's invariant
interval. -/
theorem flag_core_eq_bit128 (s : State) (h1 : 128 ≤ s.range) (h2 : s.range ≤ 255) :
    flag_read_core s = bit_read_core 128 s := by
  have hlt : s.range < 256 := by omega
  have hsplit := flag_split_128 s.range hlt h1
  have hhalf : s.range - (s.range - s.range / 2) = s.range / 2 := by
    have := Nat.div_le_self s.range 2
    omega
  have hsh1 := flag_shift_half s.range hlt h1
  have hsh2 := flag_shift_split s.range hlt h1
  simp only [flag_read_core, bit_read_core]
  rw [hsplit, hhalf, hsh1, hsh2]

/-- `fast_read_sign`'s arithmetic agrees with `fast_read_flag`'s on every
state whose range is at most 254 (range 255 occurs only before the first
symbol, and sign bits are never the first symbol). -/
theorem sign_core_eq_flag (s : State) (h1 : 128 ≤ s.range) (h2 : s.range ≤ 254) :
    sign_read_core s = flag_read_core s := by
  have hlt : s.range < 255 := by omega
  have hsh1 := sign_shift_half s.range hlt h1
  have hsh2 := sign_shift_split s.range hlt h1
  simp only [sign_read_core, flag_read_core]
  rw [hsh1, hsh2]
  norm_num

end ImageWebp

namespace ImageWebp

theorem mod32_id {x : Nat} (h : x ≤ 254) : x % 2 ^ 32 = x :=
  Nat.mod_eq_of_lt (lt_of_le_of_lt h (by norm_num))

theorem fast_refill_range (chunks : List Nat) (s : State) :
    (fast_refill chunks s).range = s.range := by
  unfold fast_refill
  split <;> rfl

theorem cold_refill_range (chunks : List Nat) (s : State) :
    (cold_refill chunks s).range = s.range := by
  unfold cold_refill
  split
  · rcases h : chunks.get? s.chunk_index with _ | v <;> simp [h]
  · rfl

theorem fast_refill_index_ge (chunks : List Nat) (s : State) :
    s.chunk_index ≤ (fast_refill chunks s).chunk_index := by
  unfold fast_refill
  split
  · simp
  · exact le_refl _

theorem cold_refill_index_ge (chunks : List Nat) (s : State) :
    s.chunk_index ≤ (cold_refill chunks s).chunk_index := by
  unfold cold_refill
  split
  · rcases h : chunks.get? s.chunk_index with _ | v <;> simp [h]
  · exact le_refl _

/-! ### The fast primitives agree with the cold ones when they commit -/

theorem read_bool_eq_cold (chunks : List Nat) (p : Nat) (s : State) :
    read_bool chunks p s = cold_read_bool chunks p s := by
  unfold read_bool commit_if_valid
  split
  · rename_i hle
    simp only [Option.getD_some]
    have hidx : (fast_read_bit chunks p s).2.chunk_index =
        (fast_refill chunks s).chunk_index := bit_read_core_chunk_index _ _
    have hle2 : (fast_refill chunks s).chunk_index ≤ chunks.length := by
      rw [← hidx]; exact hle
    unfold fast_read_bit cold_read_bool cold_read_bit
    rw [fast_refill_eq_cold chunks s hle2]
  · simp only [Option.getD_none]

theorem read_flag_eq_cold (chunks : List Nat) (s : State)
    (h1 : 128 ≤ s.range) (h2 : s.range ≤ 255) :
    read_flag chunks s = cold_read_flag chunks s := by
  unfold read_flag commit_if_valid
  split
  · rename_i hle
    simp only [Option.getD_some]
    have hidx : (fast_read_flag chunks s).2.chunk_index =
        (fast_refill chunks s).chunk_index := flag_read_core_chunk_index _
    have hle2 : (fast_refill chunks s).chunk_index ≤ chunks.length := by
      rw [← hidx]; exact hle
    have hr := fast_refill_range chunks s
    unfold fast_read_flag cold_read_flag cold_read_bit
    rw [flag_core_eq_bit128 _ (by rw [hr]; exact h1) (by rw [hr]; exact h2),
      fast_refill_eq_cold chunks s hle2]
  · simp only [Option.getD_none]

/-- `read_sign` and `read_flag` agree from any state with `range ≤ 254`
(the two dispatchers share the cold fallback, and the fast cores agree). -/
theorem read_sign_eq_read_flag (chunks : List Nat) (s : State)
    (h1 : 128 ≤ s.range) (h2 : s.range ≤ 254) :
    read_sign chunks s = read_flag chunks s := by
  have hr := fast_refill_range chunks s
  have hcore : fast_read_sign chunks s = fast_read_flag chunks s := by
    unfold fast_read_sign fast_read_flag
    exact sign_core_eq_flag _ (by rw [hr]; exact h1) (by rw [hr]; exact h2)
  unfold read_sign read_flag
  rw [hcore]

/-! ### Range bounds of one core step -/

theorem flag_core_range (s : State) (h1 : 128 ≤ s.range) (h2 : s.range ≤ 255) :
    128 ≤ (flag_read_core s).2.range ∧ (flag_read_core s).2.range ≤ 254 := by
  have h := flag_post_bounds s.range (by omega) h1
  simp only [flag_read_core]
  split
  · exact ⟨by rw [mod32_id h.2.1]; exact h.1, by rw [mod32_id h.2.1]; exact h.2.1⟩
  · exact ⟨by rw [mod32_id h.2.2.2]; exact h.2.2.1, by rw [mod32_id h.2.2.2]; exact h.2.2.2⟩

theorem sign_core_range (s : State) (h1 : 128 ≤ s.range) (h2 : s.range ≤ 254) :
    128 ≤ (sign_read_core s).2.range ∧ (sign_read_core s).2.range ≤ 254 := by
  have h := sign_post_bounds s.range (by omega) h1
  simp only [sign_read_core]
  split
  · exact ⟨by rw [mod32_id h.2.1]; exact h.1, by rw [mod32_id h.2.1]; exact h.2.1⟩
  · exact ⟨by rw [mod32_id h.2.2.2]; exact h.2.2.1, by rw [mod32_id h.2.2.2]; exact h.2.2.2⟩

theorem bit_core_bounds (p : Nat) (s : State) (h1 : 128 ≤ s.range)
    (h2 : s.range ≤ 255) (hp : p ≤ 255) :
    128 ≤ (bit_read_core p s).2.range ∧ (bit_read_core p s).2.range ≤ 254 ∧
    s.bit_count - 7 ≤ (bit_read_core p s).2.bit_count ∧
    (bit_read_core p s).2.bit_count ≤ s.bit_count := by
  have hsp := split_le s.range p (by omega) hp
  simp only [bit_read_core]
  split
  · set x := s.range - (1 + (s.range - 1) * p / 256) with hx
    have hx1 : 1 ≤ x := by omega
    have hx2 : x < 255 := by omega
    have h := renorm_spec x hx2 hx1
    refine ⟨by rw [mod32_id h.2.2.1]; exact h.2.1, by rw [mod32_id h.2.2.1]; exact h.2.2.1,
      ?_, ?_⟩ <;> simp only [] <;> omega
  · set x := 1 + (s.range - 1) * p / 256 with hx
    have hx1 : 1 ≤ x := by omega
    have hx2 : x < 255 := by omega
    have h := renorm_spec x hx2 hx1
    refine ⟨by rw [mod32_id h.2.2.1]; exact h.2.1, by rw [mod32_id h.2.2.1]; exact h.2.2.1,
      ?_, ?_⟩ <;> simp only [] <;> omega

end ImageWebp

namespace ImageWebp

/-! ### Chunk-index monotonicity of the primitives -/

theorem fast_read_bit_index_ge (chunks : List Nat) (p : Nat) (s : State) :
    s.chunk_index ≤ (fast_read_bit chunks p s).2.chunk_index := by
  unfold fast_read_bit
  rw [bit_read_core_chunk_index]
  exact fast_refill_index_ge chunks s

theorem fast_read_flag_index_ge (chunks : List Nat) (s : State) :
    s.chunk_index ≤ (fast_read_flag chunks s).2.chunk_index := by
  unfold fast_read_flag
  rw [flag_read_core_chunk_index]
  exact fast_refill_index_ge chunks s

theorem fast_read_sign_index_ge (chunks : List Nat) (s : State) :
    s.chunk_index ≤ (fast_read_sign chunks s).2.chunk_index := by
  unfold fast_read_sign
  rw [sign_read_core_chunk_index]
  exact fast_refill_index_ge chunks s

theorem cold_read_bit_index_ge (chunks : List Nat) (p : Nat) (s : State) :
    s.chunk_index ≤ (cold_read_bit chunks p s).2.chunk_index := by
  unfold cold_read_bit
  rw [bit_read_core_chunk_index]
  exact cold_refill_index_ge chunks s

theorem fast_literal_aux_index_ge (chunks : List Nat) :
    ∀ n v (s : State), s.chunk_index ≤ (fast_read_literal_aux chunks n v s).2.chunk_index := by
  intro n
  induction n with
  | zero => intro v s; exact le_refl _
  | succ n ih =>
    intro v s
    simp only [fast_read_literal_aux]
    exact le_trans (fast_read_flag_index_ge chunks s) (ih _ _)

theorem cold_literal_aux_index_ge (chunks : List Nat) :
    ∀ n v (s : State), s.chunk_index ≤ (cold_read_literal_aux chunks n v s).2.chunk_index := by
  intro n
  induction n with
  | zero => intro v s; exact le_refl _
  | succ n ih =>
    intro v s
    simp only [cold_read_literal_aux]
    exact le_trans (cold_read_bit_index_ge chunks 128 s) (ih _ _)

theorem fast_tree_index_ge (chunks : List Nat) (tree : List TreeNode) :
    ∀ fuel node (s : State),
      s.chunk_index ≤ (fast_read_with_tree chunks tree fuel node s).2.chunk_index := by
  intro fuel
  induction fuel with
  | zero =>
    intro node s
    have hb := fast_read_bit_index_ge chunks node.prob s
    simp only [fast_read_with_tree]
    split <;> split <;> exact hb
  | succ fuel ih =>
    intro node s
    have hb := fast_read_bit_index_ge chunks node.prob s
    simp only [fast_read_with_tree]
    rcases hg : tree.get? (if (fast_read_bit chunks node.prob s).1 then node.right
        else node.left) with _ | next
    · simp only [hg]
      exact hb
    · simp only [hg]
      exact le_trans hb (ih _ _)

theorem cold_tree_index_ge (chunks : List Nat) (tree : List TreeNode) :
    ∀ fuel ix (s : State),
      s.chunk_index ≤ (cold_read_with_tree chunks tree fuel ix s).2.chunk_index := by
  intro fuel
  induction fuel with
  | zero =>
    intro ix s
    have hb := cold_read_bit_index_ge chunks ((tree.get? ix).getD default).prob s
    simp only [cold_read_with_tree]
    split <;> split <;> exact hb
  | succ fuel ih =>
    intro ix s
    have hb := cold_read_bit_index_ge chunks ((tree.get? ix).getD default).prob s
    simp only [cold_read_with_tree]
    split <;> split
    · exact le_trans hb (ih _ _)
    · exact hb
    · exact le_trans hb (ih _ _)
    · exact hb

/-! ### Fast primitives agree with cold ones while inside the buffer -/

theorem fast_read_bit_eq_cold (chunks : List Nat) (p : Nat) (s : State)
    (hle : (fast_read_bit chunks p s).2.chunk_index ≤ chunks.length) :
    fast_read_bit chunks p s = cold_read_bit chunks p s := by
  have hidx : (fast_read_bit chunks p s).2.chunk_index =
      (fast_refill chunks s).chunk_index := bit_read_core_chunk_index _ _
  unfold fast_read_bit cold_read_bit
  rw [fast_refill_eq_cold chunks s (by rw [← hidx]; exact hle)]

theorem fast_read_flag_eq_cold (chunks : List Nat) (s : State)
    (h1 : 128 ≤ s.range) (h2 : s.range ≤ 255)
    (hle : (fast_read_flag chunks s).2.chunk_index ≤ chunks.length) :
    fast_read_flag chunks s = cold_read_flag chunks s := by
  have hidx : (fast_read_flag chunks s).2.chunk_index =
      (fast_refill chunks s).chunk_index := flag_read_core_chunk_index _
  have hr := fast_refill_range chunks s
  unfold fast_read_flag cold_read_flag cold_read_bit
  rw [flag_core_eq_bit128 _ (by rw [hr]; exact h1) (by rw [hr]; exact h2),
    fast_refill_eq_cold chunks s (by rw [← hidx]; exact hle)]

theorem cold_read_flag_range (chunks : List Nat) (s : State)
    (h1 : 128 ≤ s.range) (h2 : s.range ≤ 255) :
    128 ≤ (cold_read_flag chunks s).2.range ∧ (cold_read_flag chunks s).2.range ≤ 254 := by
  have hr := cold_refill_range chunks s
  have h := bit_core_bounds 128 (cold_refill chunks s) (by rw [hr]; exact h1)
    (by rw [hr]; exact h2) (by omega)
  exact ⟨h.1, h.2.1⟩

theorem fast_literal_aux_eq_cold (chunks : List Nat) :
    ∀ n v (s : State), 128 ≤ s.range → s.range ≤ 255 →
      (fast_read_literal_aux chunks n v s).2.chunk_index ≤ chunks.length →
      fast_read_literal_aux chunks n v s = cold_read_literal_aux chunks n v s := by
  intro n
  induction n with
  | zero => intro v s _ _ _; rfl
  | succ n ih =>
    intro v s h1 h2 hle
    simp only [fast_read_literal_aux] at hle
    have hstep : (fast_read_flag chunks s).2.chunk_index ≤ chunks.length :=
      le_trans (fast_literal_aux_index_ge chunks n _ _) hle
    have heq := fast_read_flag_eq_cold chunks s h1 h2 hstep
    simp only [fast_read_literal_aux, cold_read_literal_aux]
    rw [heq] at hle ⊢
    have hb := cold_read_flag_range chunks s h1 h2
    exact ih _ _ hb.1 (by omega) hle

theorem read_literal_eq_cold (chunks : List Nat) (n : Nat) (s : State)
    (h1 : 128 ≤ s.range) (h2 : s.range ≤ 255) :
    read_literal chunks n s = cold_read_literal chunks n s := by
  unfold read_literal commit_if_valid
  split
  · rename_i hle
    simp only [Option.getD_some]
    unfold fast_read_literal cold_read_literal
    exact fast_literal_aux_eq_cold chunks n 0 s h1 h2 hle
  · simp only [Option.getD_none]

theorem cold_literal_aux_range (chunks : List Nat) :
    ∀ n v (s : State), 128 ≤ s.range → s.range ≤ 255 →
      128 ≤ (cold_read_literal_aux chunks n v s).2.range ∧
      (cold_read_literal_aux chunks n v s).2.range ≤ 255 := by
  intro n
  induction n with
  | zero => intro v s h1 h2; exact ⟨h1, h2⟩
  | succ n ih =>
    intro v s h1 h2
    simp only [cold_read_literal_aux]
    have hb := cold_read_flag_range chunks s h1 h2
    exact ih _ _ hb.1 (by omega)

theorem read_optional_signed_value_eq_cold (chunks : List Nat) (n : Nat) (s : State)
    (h1 : 128 ≤ s.range) (h2 : s.range ≤ 255) :
    read_optional_signed_value chunks n s = cold_read_optional_signed_value chunks n s := by
  by_cases hf : (fast_read_flag chunks s).1 = true
  · by_cases hc : (fast_read_flag chunks
        (fast_read_literal chunks n (fast_read_flag chunks s).2).2).2.chunk_index ≤
        chunks.length
    · have hs2 : (fast_read_literal chunks n (fast_read_flag chunks s).2).2.chunk_index ≤
          chunks.length := le_trans (fast_read_flag_index_ge chunks _) hc
      have hs1 : (fast_read_flag chunks s).2.chunk_index ≤ chunks.length :=
        le_trans (fast_literal_aux_index_ge chunks n 0 _) hs2
      have e1 := fast_read_flag_eq_cold chunks s h1 h2 hs1
      have hb1 := cold_read_flag_range chunks s h1 h2
      rw [e1] at hs2 hc
      have e2 : fast_read_literal chunks n (cold_read_flag chunks s).2 =
          cold_read_literal chunks n (cold_read_flag chunks s).2 :=
        fast_literal_aux_eq_cold chunks n 0 _ hb1.1 (by omega) hs2
      rw [e2] at hc
      have hb2 : 128 ≤ (cold_read_literal chunks n (cold_read_flag chunks s).2).2.range ∧
          (cold_read_literal chunks n (cold_read_flag chunks s).2).2.range ≤ 255 :=
        cold_literal_aux_range chunks n 0 (cold_read_flag chunks s).2 hb1.1 (by omega)
      have e3 := fast_read_flag_eq_cold chunks
        (cold_read_literal chunks n (cold_read_flag chunks s).2).2 hb2.1 hb2.2 hc
      rw [e1] at hf
      simp only [read_optional_signed_value, fast_read_optional_signed_value,
        cold_read_optional_signed_value, commit_if_valid]
      rw [e1, if_pos hf, e2, e3]
      dsimp only
      rw [e3] at hc
      rw [if_pos hc]
      simp only [Option.getD_some]
      rw [if_pos hf]
    · simp only [read_optional_signed_value, fast_read_optional_signed_value,
        commit_if_valid]
      rw [if_pos hf]
      dsimp only
      rw [if_neg hc]
      simp only [Option.getD_none]
  · by_cases hc : (fast_read_flag chunks s).2.chunk_index ≤ chunks.length
    · have e1 := fast_read_flag_eq_cold chunks s h1 h2 hc
      rw [e1] at hf hc
      simp only [read_optional_signed_value, fast_read_optional_signed_value,
        cold_read_optional_signed_value, commit_if_valid]
      rw [e1, if_neg hf]
      dsimp only
      rw [if_pos hc]
      simp only [Option.getD_some]
      rw [if_neg hf]
    · simp only [read_optional_signed_value, fast_read_optional_signed_value,
        commit_if_valid]
      rw [if_neg hf]
      dsimp only
      rw [if_neg hc]
      simp only [Option.getD_none]

end ImageWebp

namespace ImageWebp

/-- The fast tree walk agrees with the cold one (which walks by index)
whenever the starting index resolves to the starting node and the walk
stayed inside the buffer. -/
theorem fast_tree_eq_cold (chunks : List Nat) (tree : List TreeNode) :
    ∀ fuel ix node (s : State), tree.get? ix = some node →
      (fast_read_with_tree chunks tree fuel node s).2.chunk_index ≤ chunks.length →
      fast_read_with_tree chunks tree fuel node s =
        cold_read_with_tree chunks tree fuel ix s := by
  intro fuel
  induction fuel with
  | zero =>
    intro ix node s hix hle
    have hstep : (fast_read_bit chunks node.prob s).2.chunk_index ≤ chunks.length := by
      have h2 : (fast_read_with_tree chunks tree 0 node s).2 =
          (fast_read_bit chunks node.prob s).2 := by
        simp only [fast_read_with_tree]
        split <;> split <;> rfl
      rw [h2] at hle
      exact hle
    have heq := fast_read_bit_eq_cold chunks node.prob s hstep
    simp only [fast_read_with_tree, cold_read_with_tree, hix, Option.getD_some, heq]
  | succ fuel ih =>
    intro ix node s hix hle
    simp only [fast_read_with_tree] at hle
    rcases hg : tree.get? (if (fast_read_bit chunks node.prob s).1 then node.right
        else node.left) with _ | next
    · rw [hg] at hle
      have heq := fast_read_bit_eq_cold chunks node.prob s hle
      have hnl : ¬ (if (fast_read_bit chunks node.prob s).1 then node.right
          else node.left) < tree.length := by
        intro hlt
        rcases List.get?_eq_get hlt with h
        rw [h] at hg
        exact Option.noConfusion hg
      simp only [fast_read_with_tree, cold_read_with_tree, hix, Option.getD_some, hg]
      rw [← heq]
      rw [if_neg hnl]
    · rw [hg] at hle
      have hstep : (fast_read_bit chunks node.prob s).2.chunk_index ≤ chunks.length :=
        le_trans (fast_tree_index_ge chunks tree fuel next _) hle
      have heq := fast_read_bit_eq_cold chunks node.prob s hstep
      have hlt : (if (fast_read_bit chunks node.prob s).1 then node.right
          else node.left) < tree.length := by
        by_contra hn
        rw [List.get?_eq_none.mpr (by omega)] at hg
        exact Option.noConfusion hg
      have hrec := ih _ next (fast_read_bit chunks node.prob s).2 hg hle
      simp only [fast_read_with_tree, cold_read_with_tree, hix, Option.getD_some, hg]
      rw [← heq, if_pos hlt]
      exact hrec

/-- The `read_with_tree` dispatcher always agrees with the cold walk
started at the index of the root node (provided that index resolves back
to the root node, as the `vp8.rs` tree tables guarantee). -/
theorem read_with_tree_eq_cold (chunks : List Nat) (tree : List TreeNode)
    (fuel : Nat) (s : State)
    (hroot : tree.get? ((tree.get? 0).getD default).index =
      some ((tree.get? 0).getD default)) :
    read_with_tree chunks tree fuel s =
      cold_read_with_tree chunks tree fuel ((tree.get? 0).getD default).index s := by
  simp only [read_with_tree, commit_if_valid]
  split
  · rename_i hle
    simp only [Option.getD_some]
    exact fast_tree_eq_cold chunks tree fuel _ _ s hroot hle
  · simp only [Option.getD_none]

end ImageWebp

namespace ImageWebp

/-- Extracting the committed fast result when the dispatcher equals the
cold result. -/
theorem getD_some_eq {α : Type} (o : Option α) (c : α) (heq : o.getD c = c) :
    ∀ r, o = some r → r = c := by
  intro r hsome
  rw [hsome] at heq
  simpa using heq

/-- C2: for every decoder state (with the decoder's range invariant) and
every primitive, a committed fast-path result coincides with the cold
path's result and state, and consequently each public dispatcher behaves
exactly like its cold path: the choice of path is unobservable. -/
theorem c2_fast_cold_agree (chunks : List Nat) (p n m fuel : Nat)
    (tree : List TreeNode) (s : State)
    (h1 : 128 ≤ s.range) (h2 : s.range ≤ 255)
    (hroot : tree.get? ((tree.get? 0).getD default).index =
      some ((tree.get? 0).getD default)) :
    (∀ r, commit_if_valid chunks (fast_read_bit chunks p s) = some r →
        r = cold_read_bool chunks p s) ∧
    (∀ r, commit_if_valid chunks (fast_read_flag chunks s) = some r →
        r = cold_read_flag chunks s) ∧
    (∀ r, commit_if_valid chunks (fast_read_literal chunks n s) = some r →
        r = cold_read_literal chunks n s) ∧
    (∀ r, fast_read_optional_signed_value chunks m s = some r →
        r = cold_read_optional_signed_value chunks m s) ∧
    (∀ r, commit_if_valid chunks
          (fast_read_with_tree chunks tree fuel ((tree.get? 0).getD default) s) = some r →
        r = cold_read_with_tree chunks tree fuel ((tree.get? 0).getD default).index s) ∧
    read_bool chunks p s = cold_read_bool chunks p s ∧
    read_flag chunks s = cold_read_flag chunks s ∧
    read_literal chunks n s = cold_read_literal chunks n s ∧
    read_optional_signed_value chunks m s = cold_read_optional_signed_value chunks m s ∧
    read_with_tree chunks tree fuel s =
      cold_read_with_tree chunks tree fuel ((tree.get? 0).getD default).index s := by
  have hb := read_bool_eq_cold chunks p s
  have hf := read_flag_eq_cold chunks s h1 h2
  have hl := read_literal_eq_cold chunks n s h1 h2
  have ho := read_optional_signed_value_eq_cold chunks m s h1 h2
  have ht := read_with_tree_eq_cold chunks tree fuel s hroot
  exact ⟨getD_some_eq _ _ hb, getD_some_eq _ _ hf, getD_some_eq _ _ hl,
    getD_some_eq _ _ ho, getD_some_eq _ _ ht, hb, hf, hl, ho, ht⟩

/-- Witness for C2 at a concrete stream, state and tree. -/
theorem c2_fast_cold_agree_witness :
    read_flag [0x68656C00] init_state = cold_read_flag [0x68656C00] init_state :=
  (c2_fast_cold_agree [0x68656C00] 10 3 2 1 [⟨128, 2, 3, 0⟩] init_state
    (by decide) (by decide) (by decide)).2.2.2.2.2.2.1

/-- C5: `read_flag()` returns the same boolean and final state as
`read_bool(128)`, on every state satisfying the decoder's range
invariant. -/
theorem c5_read_flag_eq_read_bool_128 (chunks : List Nat) (s : State)
    (h1 : 128 ≤ s.range) (h2 : s.range ≤ 255) :
    read_flag chunks s = read_bool chunks 128 s := by
  have hr := fast_refill_range chunks s
  have hcore : fast_read_flag chunks s = fast_read_bit chunks 128 s := by
    unfold fast_read_flag fast_read_bit
    exact flag_core_eq_bit128 _ (by rw [hr]; exact h1) (by rw [hr]; exact h2)
  unfold read_flag read_bool
  rw [hcore]
  rfl

/-- Witness for C5 at a concrete stream and the initial state. -/
theorem c5_read_flag_eq_read_bool_128_witness :
    read_flag [0x68656C00] init_state = read_bool [0x68656C00] 128 init_state :=
  c5_read_flag_eq_read_bool_128 [0x68656C00] init_state (by decide) (by decide)

/-- C10: `read_sign()` agrees with `read_flag()` (result and final state)
on every state with `128 ≤ range ≤ 254`, i.e. after at least one symbol
has been read. -/
theorem c10_read_sign_eq_read_flag (chunks : List Nat) (s : State)
    (h1 : 128 ≤ s.range) (h2 : s.range ≤ 254) :
    read_sign chunks s = read_flag chunks s :=
  read_sign_eq_read_flag chunks s h1 h2

/-- Witness for C10 at a concrete stream and mid-stream state. -/
theorem c10_read_sign_eq_read_flag_witness :
    read_sign [0x68656C00] { chunk_index := 0, value := 0, range := 200, bit_count := -8 } =
      read_flag [0x68656C00] { chunk_index := 0, value := 0, range := 200, bit_count := -8 } :=
  c10_read_sign_eq_read_flag [0x68656C00] _ (by decide) (by decide)

end ImageWebp

namespace ImageWebp

/-- The functional description of one bit read from a refilled state
`s1`, exactly as the spec words it: `split = 1 + ((range - 1) * p >> 8)`,
`bigsplit = split << bit_count`; on `value ≥ bigsplit` the symbol is 1,
`value` drops by `bigsplit` and `range` by `split`, else the symbol is 0
and `range` becomes `split`; then `range` is shifted left by the least
`k` that makes it at least 128 (`bit_count` drops by `k`). -/
def BitReadSpec (p : Nat) (s1 : State) : Prop :=
  ∃ k : Nat,
    ((bit_read_core p s1).1 = true ↔
      (1 + (s1.range - 1) * p / 256) <<< s1.bit_count.toNat ≤ s1.value) ∧
    ((1 + (s1.range - 1) * p / 256) <<< s1.bit_count.toNat ≤ s1.value →
      (bit_read_core p s1).2.value =
        s1.value - (1 + (s1.range - 1) * p / 256) <<< s1.bit_count.toNat ∧
      (bit_read_core p s1).2.range =
        (s1.range - (1 + (s1.range - 1) * p / 256)) <<< k ∧
      (bit_read_core p s1).2.bit_count = s1.bit_count - (k : Int) ∧
      ∀ j, j < k → (s1.range - (1 + (s1.range - 1) * p / 256)) <<< j < 128) ∧
    (¬ (1 + (s1.range - 1) * p / 256) <<< s1.bit_count.toNat ≤ s1.value →
      (bit_read_core p s1).2.value = s1.value ∧
      (bit_read_core p s1).2.range = (1 + (s1.range - 1) * p / 256) <<< k ∧
      (bit_read_core p s1).2.bit_count = s1.bit_count - (k : Int) ∧
      ∀ j, j < k → (1 + (s1.range - 1) * p / 256) <<< j < 128) ∧
    128 ≤ (bit_read_core p s1).2.range ∧ (bit_read_core p s1).2.range ≤ 254

/-- C1's full postcondition: `read_bool` performs the refill dictated by
the taken path (which preserves `range` and makes `bit_count`
nonnegative) and then the bit read described by `BitReadSpec`. -/
def C1Post (chunks : List Nat) (p : Nat) (s : State) : Prop :=
  ∃ s1 : State,
    (s1 = fast_refill chunks s ∨ s1 = cold_refill chunks s) ∧
    s1.range = s.range ∧
    0 ≤ s1.bit_count ∧
    read_bool chunks p s = bit_read_core p s1 ∧
    BitReadSpec p s1

theorem bit_read_spec (p : Nat) (s1 : State) (h1 : 128 ≤ s1.range)
    (h2 : s1.range ≤ 255) (hb0 : 0 ≤ s1.bit_count) (hb1 : s1.bit_count ≤ 31)
    (hp : p ≤ 255) : BitReadSpec p s1 := by
  have hsp := split_le s1.range p (by omega) hp
  have hq1 : 1 ≤ 1 + (s1.range - 1) * p / 256 := by omega
  have hq2 : 1 + (s1.range - 1) * p / 256 ≤ 254 := by omega
  have hbc : s1.bit_count.toNat ≤ 31 := by omega
  have hbig : ((1 + (s1.range - 1) * p / 256) <<< s1.bit_count.toNat) % 2 ^ 64 =
      (1 + (s1.range - 1) * p / 256) <<< s1.bit_count.toNat := by
    apply Nat.mod_eq_of_lt
    rw [Nat.shiftLeft_eq]
    calc (1 + (s1.range - 1) * p / 256) * 2 ^ s1.bit_count.toNat
        ≤ 254 * 2 ^ 31 :=
          Nat.mul_le_mul hq2 (Nat.pow_le_pow_right (by omega) hbc)
      _ < 2 ^ 64 := by norm_num
  by_cases hcmp : (1 + (s1.range - 1) * p / 256) <<< s1.bit_count.toNat ≤ s1.value
  · have hcore : bit_read_core p s1 = (true,
        { s1 with value := s1.value - (1 + (s1.range - 1) * p / 256) <<< s1.bit_count.toNat
                  range := ((s1.range - (1 + (s1.range - 1) * p / 256)) <<<
                    renorm_shift (s1.range - (1 + (s1.range - 1) * p / 256))) % 2 ^ 32
                  bit_count := s1.bit_count -
                    (renorm_shift (s1.range - (1 + (s1.range - 1) * p / 256)) : Int) }) := by
      simp only [bit_read_core, hbig]
      rw [if_pos hcmp]
    have hren := renorm_spec (s1.range - (1 + (s1.range - 1) * p / 256))
      (by omega) (by omega)
    refine ⟨renorm_shift (s1.range - (1 + (s1.range - 1) * p / 256)), ?_, ?_, ?_, ?_, ?_⟩
    · rw [hcore]; simpa using hcmp
    · intro _
      rw [hcore]
      exact ⟨rfl, mod32_id hren.2.2.1, rfl, hren.2.2.2⟩
    · intro hn; exact absurd hcmp hn
    · rw [hcore]; dsimp only; rw [mod32_id hren.2.2.1]; exact hren.2.1
    · rw [hcore]; dsimp only; rw [mod32_id hren.2.2.1]; exact hren.2.2.1
  · have hcore : bit_read_core p s1 = (false,
        { s1 with range := ((1 + (s1.range - 1) * p / 256) <<<
                    renorm_shift (1 + (s1.range - 1) * p / 256)) % 2 ^ 32
                  bit_count := s1.bit_count -
                    (renorm_shift (1 + (s1.range - 1) * p / 256) : Int) }) := by
      simp only [bit_read_core, hbig]
      rw [if_neg hcmp]
    have hren := renorm_spec (1 + (s1.range - 1) * p / 256) (by omega) (by omega)
    refine ⟨renorm_shift (1 + (s1.range - 1) * p / 256), ?_, ?_, ?_, ?_, ?_⟩
    · rw [hcore]; simpa using hcmp
    · intro hy; exact absurd hy hcmp
    · intro _
      rw [hcore]
      exact ⟨rfl, mod32_id hren.2.2.1, rfl, hren.2.2.2⟩
    · rw [hcore]; dsimp only; rw [mod32_id hren.2.2.1]; exact hren.2.1
    · rw [hcore]; dsimp only; rw [mod32_id hren.2.2.1]; exact hren.2.2.1

/-- C1: from any state with the decoder's range invariant (and the
reachable `bit_count` window), `read_bool` refills, computes the split
and the big split, chooses the symbol by comparing `value` with the big
split, updates `value` and `range` accordingly, renormalizes by the least
shift bringing `range` back to at least 128, and lands in
`128 ≤ range ≤ 254`. -/
theorem c1_read_bool_spec (chunks : List Nat) (p : Nat) (s : State)
    (h1 : 128 ≤ s.range) (h2 : s.range ≤ 255) (h3 : -32 ≤ s.bit_count)
    (h4 : s.bit_count ≤ 31) (hp : p ≤ 255) : C1Post chunks p s := by
  by_cases hcv : (fast_read_bit chunks p s).2.chunk_index ≤ chunks.length
  · refine ⟨fast_refill chunks s, Or.inl rfl, fast_refill_range chunks s, ?_, ?_, ?_⟩
    · exact (fast_refill_spec chunks s h3 h4).2.2.2.1
    · unfold read_bool commit_if_valid
      rw [if_pos hcv]
      simp only [Option.getD_some]
      rfl
    · have hfr := fast_refill_spec chunks s h3 h4
      exact bit_read_spec p _ (by rw [fast_refill_range]; exact h1)
        (by rw [fast_refill_range]; exact h2) hfr.2.2.2.1 hfr.2.2.2.2 hp
  · refine ⟨cold_refill chunks s, Or.inr rfl, cold_refill_range chunks s, ?_, ?_, ?_⟩
    · exact (cold_refill_spec chunks s h3 h4).2.2.2.1
    · unfold read_bool commit_if_valid
      rw [if_neg hcv]
      simp only [Option.getD_none]
      rfl
    · have hcr := cold_refill_spec chunks s h3 h4
      exact bit_read_spec p _ (by rw [cold_refill_range]; exact h1)
        (by rw [cold_refill_range]; exact h2) hcr.2.2.2.1 hcr.2.2.2.2 hp

/-- Witness for C1 at a concrete stream, probability and the initial
state. -/
theorem c1_read_bool_spec_witness : C1Post [0x68656C00] 10 init_state :=
  c1_read_bool_spec [0x68656C00] 10 init_state (by decide) (by decide)
    (by decide) (by decide) (by decide)

end ImageWebp

namespace ImageWebp

/-- Weak state invariant: what holds of the initial state and of every
reachable state (`range 255` and `bit_count -8` occur only initially). -/
def InvW (s : State) : Prop :=
  128 ≤ s.range ∧ s.range ≤ 255 ∧ -32 ≤ s.bit_count ∧ s.bit_count ≤ 31

/-- Strong state invariant: what holds after at least one bit has been
read. -/
def Inv254 (s : State) : Prop :=
  128 ≤ s.range ∧ s.range ≤ 254 ∧ -7 ≤ s.bit_count ∧ s.bit_count ≤ 31

theorem Inv254.toInvW {s : State} (h : Inv254 s) : InvW s := by
  obtain ⟨a, b, c, d⟩ := h
  exact ⟨a, by omega, by omega, d⟩

theorem fast_read_bit_inv (chunks : List Nat) (p : Nat) (s : State)
    (hs : InvW s) (hp : p ≤ 255) : Inv254 (fast_read_bit chunks p s).2 := by
  unfold fast_read_bit
  have hfr := fast_refill_spec chunks s hs.2.2.1 hs.2.2.2
  have hb := bit_core_bounds p (fast_refill chunks s)
    (by rw [hfr.1]; exact hs.1) (by rw [hfr.1]; exact hs.2.1) hp
  exact ⟨hb.1, hb.2.1, by have := hb.2.2.1; have := hfr.2.2.2.1; omega,
    by have := hb.2.2.2; have := hfr.2.2.2.2; omega⟩

theorem cold_read_bit_inv (chunks : List Nat) (p : Nat) (s : State)
    (hs : InvW s) (hp : p ≤ 255) : Inv254 (cold_read_bit chunks p s).2 := by
  unfold cold_read_bit
  have hcr := cold_refill_spec chunks s hs.2.2.1 hs.2.2.2
  have hb := bit_core_bounds p (cold_refill chunks s)
    (by rw [hcr.1]; exact hs.1) (by rw [hcr.1]; exact hs.2.1) hp
  exact ⟨hb.1, hb.2.1, by have := hb.2.2.1; have := hcr.2.2.2.1; omega,
    by have := hb.2.2.2; have := hcr.2.2.2.2; omega⟩

theorem cold_literal_aux_inv (chunks : List Nat) :
    ∀ n v (s : State), InvW s →
      Inv254 (cold_read_literal_aux chunks n v s).2 ∨
        ((cold_read_literal_aux chunks n v s).2 = s ∧ n = 0) := by
  intro n
  induction n with
  | zero => intro v s _; exact Or.inr ⟨rfl, rfl⟩
  | succ n ih =>
    intro v s hs
    simp only [cold_read_literal_aux]
    have h1 : Inv254 (cold_read_flag chunks s).2 :=
      cold_read_bit_inv chunks 128 s hs (by omega)
    rcases ih ((v * 2 + (if (cold_read_flag chunks s).1 then 1 else 0)) % 256)
        (cold_read_flag chunks s).2 h1.toInvW with h | h
    · exact Or.inl h
    · exact Or.inl (by rw [h.1]; exact h1)

theorem cold_opt_inv (chunks : List Nat) (n : Nat) (s : State) (hs : InvW s) :
    Inv254 (cold_read_optional_signed_value chunks n s).2 := by
  have h1 : Inv254 (cold_read_flag chunks s).2 :=
    cold_read_bit_inv chunks 128 s hs (by omega)
  simp only [cold_read_optional_signed_value]
  split
  · have h2 : Inv254 (cold_read_literal chunks n (cold_read_flag chunks s).2).2 := by
      rcases cold_literal_aux_inv chunks n 0 (cold_read_flag chunks s).2 h1.toInvW with h | h
      · exact h
      · unfold cold_read_literal
        rw [h.1]
        exact h1
    exact cold_read_bit_inv chunks 128 _ h2.toInvW (by omega)
  · exact h1

theorem default_tree_node_prob : (default : TreeNode).prob ≤ 255 := by decide

theorem getD_tree_node_prob (tree : List TreeNode) (ix : Nat)
    (hwf : ∀ nd ∈ tree, nd.prob ≤ 255) :
    ((tree.get? ix).getD default).prob ≤ 255 := by
  rcases h : tree.get? ix with _ | nd
  · simpa using default_tree_node_prob
  · simpa using hwf nd (List.get?_mem h)

theorem fast_tree_inv (chunks : List Nat) (tree : List TreeNode)
    (hwf : ∀ nd ∈ tree, nd.prob ≤ 255) :
    ∀ fuel node (s : State), node.prob ≤ 255 → InvW s →
      Inv254 (fast_read_with_tree chunks tree fuel node s).2 := by
  intro fuel
  induction fuel with
  | zero =>
    intro node s hp hs
    have hb := fast_read_bit_inv chunks node.prob s hs hp
    simp only [fast_read_with_tree]
    split <;> split <;> exact hb
  | succ fuel ih =>
    intro node s hp hs
    have hb := fast_read_bit_inv chunks node.prob s hs hp
    simp only [fast_read_with_tree]
    rcases hg : tree.get? (if (fast_read_bit chunks node.prob s).1 then node.right
        else node.left) with _ | next
    · simp only [hg]
      exact hb
    · simp only [hg]
      exact ih next _ (hwf next (List.get?_mem hg)) hb.toInvW

theorem cold_tree_inv (chunks : List Nat) (tree : List TreeNode)
    (hwf : ∀ nd ∈ tree, nd.prob ≤ 255) :
    ∀ fuel ix (s : State), InvW s →
      Inv254 (cold_read_with_tree chunks tree fuel ix s).2 := by
  intro fuel
  induction fuel with
  | zero =>
    intro ix s hs
    have hb := cold_read_bit_inv chunks ((tree.get? ix).getD default).prob s hs
      (getD_tree_node_prob tree ix hwf)
    simp only [cold_read_with_tree]
    split <;> split <;> exact hb
  | succ fuel ih =>
    intro ix s hs
    have hb := cold_read_bit_inv chunks ((tree.get? ix).getD default).prob s hs
      (getD_tree_node_prob tree ix hwf)
    simp only [cold_read_with_tree]
    split <;> split
    · exact ih _ _ hb.toInvW
    · exact hb
    · exact ih _ _ hb.toInvW
    · exact hb

/-- Primitives that may legally be the first symbol read from a fresh
stream: everything except a sign bit (the code documents that sign bits
are never the first symbol) and the no-op zero-length literal. -/
def Prim.firstOk : Prim → Prop
  | .sign => False
  | .literal n => n ≠ 0
  | _ => True

theorem stepPrim_inv (chunks : List Nat) (s : State) (pr : Prim)
    (hwf : pr.wf) (hs : InvW s) (hsign : pr = Prim.sign → s.range ≤ 254) :
    Inv254 (stepPrim chunks s pr) ∨
      (stepPrim chunks s pr = s ∧ pr = Prim.literal 0) := by
  cases pr with
  | bool p =>
    left
    simp only [stepPrim, read_bool_eq_cold]
    exact cold_read_bit_inv chunks p s hs hwf
  | flag =>
    left
    simp only [stepPrim, read_flag_eq_cold chunks s hs.1 hs.2.1]
    exact cold_read_bit_inv chunks 128 s hs (by omega)
  | sign =>
    left
    have h254 := hsign rfl
    simp only [stepPrim, read_sign_eq_read_flag chunks s hs.1 h254,
      read_flag_eq_cold chunks s hs.1 hs.2.1]
    exact cold_read_bit_inv chunks 128 s hs (by omega)
  | literal n =>
    simp only [stepPrim, read_literal_eq_cold chunks n s hs.1 hs.2.1]
    rcases cold_literal_aux_inv chunks n 0 s hs with h | h
    · exact Or.inl h
    · exact Or.inr ⟨h.1, by rw [h.2]⟩
  | optSigned n =>
    left
    simp only [stepPrim, read_optional_signed_value_eq_cold chunks n s hs.1 hs.2.1]
    exact cold_opt_inv chunks n s hs
  | tree t fuel =>
    left
    simp only [stepPrim, read_with_tree, commit_if_valid]
    split
    · simp only [Option.getD_some]
      exact fast_tree_inv chunks t hwf fuel _ s (getD_tree_node_prob t 0 hwf) hs
    · simp only [Option.getD_none]
      exact cold_tree_inv chunks t hwf fuel _ s hs

theorem run_inv254 (chunks : List Nat) :
    ∀ (prims : List Prim) (s : State), Inv254 s → (∀ q ∈ prims, Prim.wf q) →
      Inv254 (run chunks prims s) := by
  intro prims
  induction prims with
  | nil => intro s hs _; exact hs
  | cons pr rest ih =>
    intro s hs hwf
    have hstep := stepPrim_inv chunks s pr (hwf pr (by simp)) hs.toInvW
      (fun _ => hs.2.1)
    simp only [run, List.foldl_cons]
    rcases hstep with h | h
    · exact ih _ h (fun q hq => hwf q (by simp [hq]))
    · rw [h.1]
      exact ih _ hs (fun q hq => hwf q (by simp [hq]))

theorem init_state_invW : InvW init_state := by
  refine ⟨?_, ?_, ?_, ?_⟩ <;> simp [init_state, InvW]

theorem init_range_lb : (128 : Nat) ≤ init_state.range := by decide

theorem init_range_ub : init_state.range ≤ 255 := by decide

theorem first_step_inv (chunks : List Nat) (pr : Prim)
    (hwf : pr.wf) (hfirst : pr.firstOk) :
    Inv254 (stepPrim chunks init_state pr) := by
  have hsign : pr = Prim.sign → init_state.range ≤ 254 := by
    intro hpr
    rw [hpr] at hfirst
    exact absurd hfirst (by simp [Prim.firstOk])
  rcases stepPrim_inv chunks init_state pr hwf init_state_invW hsign with h | h
  · exact h
  · rw [h.2] at hfirst
    exact absurd rfl hfirst

end ImageWebp

namespace ImageWebp

/-- C3, counterexample: the clause `value < range << bit_count` fails on
concrete payloads (a single all-ones chunk, `read_bool(0)` from the
initialized state), and `128 ≤ range ≤ 255` fails when a sign bit is the
very first symbol read (the code's own debug assertion documents that
sign bits are never first): there `range` reaches 256. -/
theorem c3_invariant_counterexample :
    ¬ ((run [0xFFFFFFFF] [Prim.bool 0] init_state).value <
        (run [0xFFFFFFFF] [Prim.bool 0] init_state).range <<<
          (run [0xFFFFFFFF] [Prim.bool 0] init_state).bit_count.toNat) ∧
    (run [0] [Prim.sign] init_state).range = 256 := by
  exact ⟨by decide, by decide⟩

/-- C3, amended: after every symbol read starting from an initialized
state — provided the first symbol read is not a sign bit and reads at
least one bit — the state satisfies `128 ≤ range ≤ 254` (hence
`≤ 255`) and `-7 ≤ bit_count ≤ 31` (so `bit_count ∈ [0, 63]` whenever it
is nonnegative, i.e. whenever no refill is pending).  The clause
`value < range << bit_count` is dropped: junk payload bits make `value`
exceed that bound while decoding proceeds normally. -/
theorem c3_amended_invariant (chunks : List Nat) (pr : Prim) (prims : List Prim)
    (hwf1 : pr.wf) (hwf2 : ∀ q ∈ prims, Prim.wf q) (hfirst : pr.firstOk) :
    128 ≤ (run chunks (pr :: prims) init_state).range ∧
    (run chunks (pr :: prims) init_state).range ≤ 254 ∧
    -7 ≤ (run chunks (pr :: prims) init_state).bit_count ∧
    (run chunks (pr :: prims) init_state).bit_count ≤ 31 := by
  have h0 : Inv254 (stepPrim chunks init_state pr) :=
    first_step_inv chunks pr hwf1 hfirst
  have h1 : run chunks (pr :: prims) init_state =
      run chunks prims (stepPrim chunks init_state pr) := by
    simp only [run, List.foldl_cons]
  rw [h1]
  exact run_inv254 chunks prims _ h0 hwf2

/-- Witness for the amended C3 at a concrete stream and read sequence. -/
theorem c3_amended_invariant_witness :
    128 ≤ (run [0x68656C00] [Prim.flag, Prim.bool 10] init_state).range ∧
    (run [0x68656C00] [Prim.flag, Prim.bool 10] init_state).range ≤ 254 ∧
    -7 ≤ (run [0x68656C00] [Prim.flag, Prim.bool 10] init_state).bit_count ∧
    (run [0x68656C00] [Prim.flag, Prim.bool 10] init_state).bit_count ≤ 31 :=
  c3_amended_invariant [0x68656C00] Prim.flag [Prim.bool 10]
    trivial (by simp [Prim.wf]) trivial

end ImageWebp

namespace ImageWebp

theorem commit_some_eq {α : Type} (chunks : List Nat) (x : α × State) (r : α × State)
    (h : commit_if_valid chunks x = some r) : r = x := by
  unfold commit_if_valid at h
  split at h
  · exact (Option.some.inj h).symm
  · exact Option.noConfusion h

theorem getD_commit_index_ge {α : Type} (chunks : List Nat)
    (fastr coldr : α × State) (s : State)
    (hf : s.chunk_index ≤ fastr.2.chunk_index)
    (hc : s.chunk_index ≤ coldr.2.chunk_index) :
    s.chunk_index ≤ ((commit_if_valid chunks fastr).getD coldr).2.chunk_index := by
  unfold commit_if_valid
  split
  · simpa using hf
  · simpa using hc

theorem cold_opt_index_ge (chunks : List Nat) (n : Nat) (s : State) :
    s.chunk_index ≤ (cold_read_optional_signed_value chunks n s).2.chunk_index := by
  simp only [cold_read_optional_signed_value]
  split
  · exact le_trans (cold_read_bit_index_ge chunks 128 s)
      (le_trans (cold_literal_aux_index_ge chunks n 0 _)
        (cold_read_bit_index_ge chunks 128 _))
  · exact cold_read_bit_index_ge chunks 128 s

theorem fast_opt_some_index_ge (chunks : List Nat) (n : Nat) (s : State)
    (r : Int × State) (h : fast_read_optional_signed_value chunks n s = some r) :
    s.chunk_index ≤ r.2.chunk_index := by
  simp only [fast_read_optional_signed_value] at h
  split at h
  · have := commit_some_eq chunks _ r h
    rw [this]
    exact le_trans (fast_read_flag_index_ge chunks s)
      (le_trans (fast_literal_aux_index_ge chunks n 0 _)
        (fast_read_flag_index_ge chunks _))
  · have := commit_some_eq chunks _ r h
    rw [this]
    exact fast_read_flag_index_ge chunks s

/-- Every primitive read only moves the payload cursor forward: once a
read has consumed past the end, `chunk_index > chunks.length` persists
for all later reads (the overflow record is sticky). -/
theorem stepPrim_index_ge (chunks : List Nat) (s : State) (pr : Prim) :
    s.chunk_index ≤ (stepPrim chunks s pr).chunk_index := by
  cases pr with
  | bool p =>
    show s.chunk_index ≤ (read_bool chunks p s).2.chunk_index
    unfold read_bool
    exact getD_commit_index_ge chunks _ _ s (fast_read_bit_index_ge chunks p s)
      (cold_read_bit_index_ge chunks p s)
  | flag =>
    show s.chunk_index ≤ (read_flag chunks s).2.chunk_index
    unfold read_flag
    exact getD_commit_index_ge chunks _ _ s (fast_read_flag_index_ge chunks s)
      (cold_read_bit_index_ge chunks 128 s)
  | sign =>
    show s.chunk_index ≤ (read_sign chunks s).2.chunk_index
    unfold read_sign
    exact getD_commit_index_ge chunks _ _ s (fast_read_sign_index_ge chunks s)
      (cold_read_bit_index_ge chunks 128 s)
  | literal n =>
    show s.chunk_index ≤ (read_literal chunks n s).2.chunk_index
    unfold read_literal
    exact getD_commit_index_ge chunks _ _ s (fast_literal_aux_index_ge chunks n 0 s)
      (cold_literal_aux_index_ge chunks n 0 s)
  | optSigned n =>
    show s.chunk_index ≤ (read_optional_signed_value chunks n s).2.chunk_index
    unfold read_optional_signed_value
    rcases ho : fast_read_optional_signed_value chunks n s with _ | r
    · simp only [Option.getD_none]
      exact cold_opt_index_ge chunks n s
    · simp only [Option.getD_some]
      exact fast_opt_some_index_ge chunks n s r ho
  | tree t fuel =>
    show s.chunk_index ≤ (read_with_tree chunks t fuel s).2.chunk_index
    simp only [read_with_tree]
    exact getD_commit_index_ge chunks _ _ s (fast_tree_index_ge chunks t fuel _ s)
      (cold_tree_index_ge chunks t fuel _ s)

theorem run_index_ge (chunks : List Nat) :
    ∀ (prims : List Prim) (s : State),
      s.chunk_index ≤ (run chunks prims s).chunk_index := by
  intro prims
  induction prims with
  | nil => intro s; exact le_refl _
  | cons pr rest ih =>
    intro s
    simp only [run, List.foldl_cons]
    exact le_trans (stepPrim_index_ge chunks s pr) (ih _)

/-- C4: primitive reads never move the cursor backwards (so consuming
past the end is recorded permanently), and after any sequence of reads
from an initialized decoder, `check` returns `BitStreamError` precisely
when some read consumed data past the end of the supplied chunks, and
returns `Ok` with the passed value otherwise.  (In this embedding all
reads are total functions, so reads past the end return values rather
than failing.) -/
theorem c4_check_spec {α : Type} (chunks : List Nat) (prims : List Prim) (v : α) :
    (∀ (s : State) (pr : Prim), s.chunk_index ≤ (stepPrim chunks s pr).chunk_index) ∧
    (check chunks (run chunks prims init_state) v =
        Except.error DecodingError.BitStreamError ↔
      ∃ i, i < prims.length ∧
        chunks.length < (run chunks (List.take (i + 1) prims) init_state).chunk_index) ∧
    (check chunks (run chunks prims init_state) v =
        Except.error DecodingError.BitStreamError ∨
      check chunks (run chunks prims init_state) v = Except.ok v) := by
  have hch : (check chunks (run chunks prims init_state) v =
      Except.error DecodingError.BitStreamError) ↔
      chunks.length < (run chunks prims init_state).chunk_index := by
    unfold check
    split
    · rename_i h
      exact iff_of_true rfl h
    · rename_i h
      exact iff_of_false (by simp) h
  refine ⟨stepPrim_index_ge chunks, ?_, ?_⟩
  · rw [hch]
    constructor
    · intro hlt
      by_cases hnil : prims = []
      · rw [hnil] at hlt
        have : (run chunks [] init_state).chunk_index = 0 := rfl
        omega
      · have hpos : 0 < prims.length := List.length_pos.mpr hnil
        refine ⟨prims.length - 1, by omega, ?_⟩
        rw [show prims.length - 1 + 1 = prims.length from by omega, List.take_length]
        exact hlt
    · rintro ⟨i, hi, hlt⟩
      have hdecomp : run chunks prims init_state =
          run chunks (List.drop (i + 1) prims)
            (run chunks (List.take (i + 1) prims) init_state) := by
        conv_lhs => rw [← List.take_append_drop (i + 1) prims]
        simp only [run, List.foldl_append]
      rw [hdecomp]
      exact lt_of_lt_of_le hlt (run_index_ge chunks _ _)
  · unfold check
    split
    · exact Or.inl rfl
    · exact Or.inr rfl

end ImageWebp

namespace ImageWebp

/-- C6: contrary to the claim (and scenario S1 of the spec),
`WebPDecoder::new` on the empty buffer does not return `InvalidSignature`
or `BufferUnderrun`: the slice expression `data[0..4]` in `read_chunks`
panics on a buffer shorter than 4 bytes. -/
theorem c6_empty_buffer_panics :
    WebPDecoder.new ([] : List Nat) = PResult.panicked ∧
    WebPDecoder.new ([] : List Nat) ≠ PResult.err DecodingError.InvalidSignature ∧
    WebPDecoder.new ([] : List Nat) ≠ PResult.err DecodingError.BufferUnderrun := by
  exact ⟨by decide, by decide, by decide⟩

/-- C9: `output_buffer_size` is `width · height · 3` with `None` exactly
on `usize` overflow, and `read_image` returns `ImageTooLarge` on any
buffer whose length differs from it — without invoking the frame decode
(the result does not depend on `decode` or on the stored payload) — and
hands the payload to the decode step exactly when the length matches. -/
theorem c9_read_image_guard
    (decode : List Nat → List Nat → Except DecodingError (List Nat))
    (d : WebPDecoder) (buf : List Nat) :
    output_buffer_size d =
      (if d.width * d.height * 3 < 2 ^ 64 then some (d.width * d.height * 3)
       else none) ∧
    read_image decode d buf =
      (if some buf.length = output_buffer_size d then decode d.data buf
       else .error .ImageTooLarge) := by
  constructor
  · simp only [output_buffer_size, checked_mul]
    by_cases h1 : d.width * d.height < 2 ^ 64
    · rw [if_pos h1]
    · rw [if_neg h1]
      have h2 : d.width * d.height ≤ d.width * d.height * 3 :=
        Nat.le_mul_of_pos_right _ (by omega)
      rw [if_neg (by omega)]
  · simp only [read_image]
    by_cases h : some buf.length = output_buffer_size d
    · rw [if_neg (not_not_intro h), if_pos h]
    · rw [if_pos h, if_neg h]

end ImageWebp

namespace ImageWebp

theorem getD_drop (l : List Nat) (m i : Nat) (d : Nat) :
    (l.drop m).getD i d = l.getD (m + i) d := by
  simp [List.getD_eq_getElem?_getD, List.getElem?_drop]

/-- With a valid RIFF/WEBP signature and the chunk header present
(buffer length at least 20), `read_chunks` reaches the FourCC dispatch
without panicking. -/
theorem read_chunks_dispatch (data : List Nat)
    (hriff : data.take 4 = [0x52, 0x49, 0x46, 0x46])
    (hwebp : (data.drop 8).take 4 = [0x57, 0x45, 0x42, 0x50])
    (hlen : 20 ≤ data.length) :
    read_chunks data =
      (if (data.drop 12).take 4 = [0x56, 0x50, 0x38, 0x20] then
        read_vp8_chunk (data.drop 20) 20
          (20 + (data.getD 16 0 + 256 * data.getD 17 0 + 65536 * data.getD 18 0 +
            16777216 * data.getD 19 0))
      else if (data.drop 12).take 4 = [0x56, 0x50, 0x38, 0x4c] then
        .err .LosslessUnsupported
      else if (data.drop 12).take 4 = [0x56, 0x50, 0x38, 0x58] then
        .err .ExtendedUnsupported
      else .err (.ChunkHeaderInvalid ((data.drop 12).take 4))) := by
  simp only [read_chunks]
  rw [if_neg (by omega), if_neg (by simp [hriff]), if_neg (by omega),
    if_neg (by simp [hwebp]), if_neg (by simp only [List.length_drop]; omega),
    if_neg (by simp only [List.length_drop]; omega), List.drop_drop,
    getD_drop, getD_drop, getD_drop, getD_drop]

/-- With the whole 10-byte frame tag present, `read_vp8_chunk` implements
the documented keyframe/magic/size checks without panicking. -/
theorem read_vp8_chunk_spec (chunk : List Nat) (lo hi : Nat)
    (hlen : 10 ≤ chunk.length) :
    read_vp8_chunk chunk lo hi =
      (if chunk.getD 0 0 &&& 1 ≠ 0 then .err .NonKeyframe
       else if (chunk.drop 3).take 3 ≠ [0x9d, 0x01, 0x2a] then
        .err (.Vp8MagicInvalid ((chunk.drop 3).take 3))
       else if (chunk.getD 6 0 + 256 * chunk.getD 7 0) &&& 0x3fff = 0 ∨
           (chunk.getD 8 0 + 256 * chunk.getD 9 0) &&& 0x3fff = 0 then
        .err .InvalidImageSize
       else .ok ((chunk.getD 6 0 + 256 * chunk.getD 7 0) &&& 0x3fff,
         (chunk.getD 8 0 + 256 * chunk.getD 9 0) &&& 0x3fff, lo, hi)) := by
  simp only [read_vp8_chunk]
  split_ifs <;> first | rfl | omega

/-- C7: on every buffer with valid signature, `"VP8 "` FourCC and the
full 10-byte frame tag at offset 20, parsing returns `NonKeyframe` when
bit 0 of the first frame-tag byte is set; otherwise `Vp8MagicInvalid`
unless bytes 3..6 of the tag are `9D 01 2A`; otherwise it computes width
and height as the 14 low bits of the two little-endian 16-bit fields at
tag offsets 6 and 8, rejects zero as `InvalidImageSize`, and returns them
with the payload range `20 .. 20 + chunk_size`. -/
theorem c7_vp8_chunk_spec (data : List Nat)
    (hriff : data.take 4 = [0x52, 0x49, 0x46, 0x46])
    (hwebp : (data.drop 8).take 4 = [0x57, 0x45, 0x42, 0x50])
    (hfcc : (data.drop 12).take 4 = [0x56, 0x50, 0x38, 0x20])
    (hlen : 30 ≤ data.length) :
    read_chunks data =
      (if (data.drop 20).getD 0 0 &&& 1 ≠ 0 then .err .NonKeyframe
       else if ((data.drop 20).drop 3).take 3 ≠ [0x9d, 0x01, 0x2a] then
        .err (.Vp8MagicInvalid (((data.drop 20).drop 3).take 3))
       else if ((data.drop 20).getD 6 0 + 256 * (data.drop 20).getD 7 0) &&& 0x3fff = 0 ∨
           ((data.drop 20).getD 8 0 + 256 * (data.drop 20).getD 9 0) &&& 0x3fff = 0 then
        .err .InvalidImageSize
       else .ok (((data.drop 20).getD 6 0 + 256 * (data.drop 20).getD 7 0) &&& 0x3fff,
         ((data.drop 20).getD 8 0 + 256 * (data.drop 20).getD 9 0) &&& 0x3fff, 20,
         20 + (data.getD 16 0 + 256 * data.getD 17 0 + 65536 * data.getD 18 0 +
           16777216 * data.getD 19 0))) := by
  rw [read_chunks_dispatch data hriff hwebp (by omega), if_pos hfcc,
    read_vp8_chunk_spec (data.drop 20) 20 _ (by simp only [List.length_drop]; omega)]

/-- Witness for C7: a concrete 30-byte container whose VP8 frame tag
declares a 2 × 3 keyframe. -/
theorem c7_vp8_chunk_spec_witness :
    read_chunks [0x52, 0x49, 0x46, 0x46, 0, 0, 0, 0, 0x57, 0x45, 0x42, 0x50,
      0x56, 0x50, 0x38, 0x20, 16, 0, 0, 0, 0, 0, 0, 0x9d, 0x01, 0x2a,
      2, 0, 3, 0] = PResult.ok (2, 3, 20, 36) := by
  rw [c7_vp8_chunk_spec _ (by decide) (by decide) (by decide) (by decide)]
  decide

/-- C8, counterexample: the claim quantifies over every buffer with a
valid signature, but on the 16-byte buffer that ends right after the
`"VP8L"` FourCC the code panics reading the chunk size
(`chunk[4..8]`) instead of returning `LosslessUnsupported`. -/
theorem c8_dispatch_counterexample :
    WebPDecoder.new [0x52, 0x49, 0x46, 0x46, 0, 0, 0, 0,
        0x57, 0x45, 0x42, 0x50, 0x56, 0x50, 0x38, 0x4c] = PResult.panicked ∧
    WebPDecoder.new [0x52, 0x49, 0x46, 0x46, 0, 0, 0, 0,
        0x57, 0x45, 0x42, 0x50, 0x56, 0x50, 0x38, 0x4c] ≠
      PResult.err DecodingError.LosslessUnsupported := by
  exact ⟨by decide, by decide⟩

/-- C8, amended: on every buffer with a valid RIFF/WEBP signature that
also contains the 4-byte chunk size (length at least 20): FourCC
`"VP8L"` yields `LosslessUnsupported`, `"VP8X"` yields
`ExtendedUnsupported`, and any FourCC other than `"VP8 "`, `"VP8L"`,
`"VP8X"` yields `ChunkHeaderInvalid` carrying that FourCC. -/
theorem c8_amended_dispatch (data : List Nat)
    (hriff : data.take 4 = [0x52, 0x49, 0x46, 0x46])
    (hwebp : (data.drop 8).take 4 = [0x57, 0x45, 0x42, 0x50])
    (hlen : 20 ≤ data.length) :
    ((data.drop 12).take 4 = [0x56, 0x50, 0x38, 0x4c] →
      WebPDecoder.new data = PResult.err DecodingError.LosslessUnsupported) ∧
    ((data.drop 12).take 4 = [0x56, 0x50, 0x38, 0x58] →
      WebPDecoder.new data = PResult.err DecodingError.ExtendedUnsupported) ∧
    ((data.drop 12).take 4 ≠ [0x56, 0x50, 0x38, 0x20] →
      (data.drop 12).take 4 ≠ [0x56, 0x50, 0x38, 0x4c] →
      (data.drop 12).take 4 ≠ [0x56, 0x50, 0x38, 0x58] →
      WebPDecoder.new data =
        PResult.err (DecodingError.ChunkHeaderInvalid ((data.drop 12).take 4))) := by
  have hdisp := read_chunks_dispatch data hriff hwebp hlen
  have key : ∀ e : DecodingError, read_chunks data = PResult.err e →
      WebPDecoder.new data = PResult.err e := by
    intro e h
    unfold WebPDecoder.new
    rw [h]
  refine ⟨?_, ?_, ?_⟩
  · intro h
    apply key
    rw [hdisp, if_neg (by rw [h]; decide), if_pos h]
  · intro h
    apply key
    rw [hdisp, if_neg (by rw [h]; decide), if_neg (by rw [h]; decide), if_pos h]
  · intro h1 h2 h3
    apply key
    rw [hdisp, if_neg h1, if_neg h2, if_neg h3]

/-- Witness for the amended C8: a concrete 20-byte `VP8L` container. -/
theorem c8_amended_dispatch_witness :
    WebPDecoder.new [0x52, 0x49, 0x46, 0x46, 0, 0, 0, 0, 0x57, 0x45, 0x42, 0x50,
      0x56, 0x50, 0x38, 0x4c, 0, 0, 0, 0] =
      PResult.err DecodingError.LosslessUnsupported :=
  (c8_amended_dispatch _ (by decide) (by decide) (by decide)).1 (by decide)

end ImageWebp
